import Mathlib

/-!
# Verification of the memory-guardian Vector Indexing & Retrieval Engine

A shallow embedding of the core of the `memory-guardian` repository:

* text chunking (`src/utils/chunk.ts`: `chunkText`, `adjustChunkBoundary`),
* the FAISS-backed vector store (`FaissVectorStore` in the faiss-store
  module: `initialize`/`load`, `add`, `addBatch`, `search`,
  `deleteDocument`),
* the indexing task queue (`FaissVectorizerService.addTask`),
* the RAG hook handler cache (`dist/hooks/rag-inject/handler.js`), and
* the retrieval gate (`shouldPerformRag` in `dist/components/rag-injector.js`).

Strings are modelled as `List Char`; JavaScript numbers used as vector
components are modelled as `ℚ` (only ordering and arithmetic on them is
relevant); machine integers stay `Nat`/`Int` since none of the verified
paths can overflow a JS safe integer.  Impure per-chunk fields
(`randomUUID` identifiers, `Date.now()` timestamps, pass-through
`sourcePath`/`sessionKey`/`metadata` options) are omitted from the chunk
record: the verified properties never inspect them and they are copied
verbatim by the code.
-/

namespace MemoryGuardian

/-! ## Chunker (`src/utils/chunk.ts`) -/

/-- Whitespace as recognised by `String.prototype.trim` (restricted to the
ASCII whitespace the development evaluates: space, tab, CR, LF). -/
def isWsChar (c : Char) : Bool :=
  c = ' ' || c = '\t' || c = '\n' || c = '\r'

/-- `text.trim()`: drop whitespace from both ends. -/
def trimChars (l : List Char) : List Char :=
  ((l.dropWhile isWsChar).reverse.dropWhile isWsChar).reverse

/-- Index of the start of the last non-overlapping match of `"\n\n"`
(the `/\n\n/g` paragraph pattern scanned by `matchAll`: after a match the
scan resumes past it). -/
def lastNNIdx : List Char → Option Nat
  | [] => none
  | [_] => none
  | c :: d :: rest =>
    if c = '\n' ∧ d = '\n' then
      some ((lastNNIdx rest).elim 0 (· + 2))
    else (lastNNIdx (d :: rest)).map (· + 1)

/-- Index of the last character satisfying `p` (the last match of a
single-character regex class). -/
def lastIdxWhere (p : Char → Bool) : List Char → Option Nat
  | [] => none
  | c :: rest =>
    match lastIdxWhere p rest with
    | some j => some (j + 1)
    | none => if p c then some 0 else none

/-- CJK sentence punctuation class `[。！？]`. -/
def isCJKStop (c : Char) : Bool :=
  c = '。' || c = '！' || c = '？'

/-- Latin sentence punctuation class `[.!?]`. -/
def isLatinStop (c : Char) : Bool :=
  c = '.' || c = '!' || c = '?'

/-- Comma/semicolon class `[，,；;]`. -/
def isCommaStop (c : Char) : Bool :=
  c = '，' || c = ',' || c = '；' || c = ';'

/-- `adjustChunkBoundary(chunk, fullText, startOffset, endOffset).text`:
if the window already reaches the end of the text it is kept; otherwise
the last natural boundary in the final quarter of the window shrinks the
emitted text, trying paragraph break, line break, CJK stop, Latin stop,
then comma/semicolon.  `Math.floor(chunk.length * 0.75)` is exactly
`3 * len / 4` in natural arithmetic (the product is exact in binary
floating point for all lengths in range).  The caller ignores the
returned `adjustedEnd`, so only the text is modelled. -/
def adjustChunkBoundary (window : List Char) (fullLen endOffset : Nat) : List Char :=
  if fullLen ≤ endOffset then window
  else
    match lastNNIdx (window.drop (3 * window.length / 4)) with
    | some j => window.take (3 * window.length / 4 + j + 2)
    | none =>
      match lastIdxWhere (fun c => c = '\n') (window.drop (3 * window.length / 4)) with
      | some j => window.take (3 * window.length / 4 + j + 1)
      | none =>
        match lastIdxWhere isCJKStop (window.drop (3 * window.length / 4)) with
        | some j => window.take (3 * window.length / 4 + j + 1)
        | none =>
          match lastIdxWhere isLatinStop (window.drop (3 * window.length / 4)) with
          | some j => window.take (3 * window.length / 4 + j + 1)
          | none =>
            match lastIdxWhere isCommaStop (window.drop (3 * window.length / 4)) with
            | some j => window.take (3 * window.length / 4 + j + 1)
            | none => window

/-- A produced chunk: its (trimmed) text and the scan offset it was
emitted at.  The impure fields of the source record (`id`, `timestamp`)
and the pass-through option fields are omitted. -/
structure TextChunk where
  text : List Char
  offset : Nat
deriving DecidableEq, Repr

/-- The chunk (if any) that the loop body emits at offset `o`: the raw
window is `text.slice(o, min (o + chunkSize) len)`, boundary-adjusted and
trimmed; whitespace-only chunks are dropped. -/
def emitAt (text : List Char) (chunkSize offset : Nat) : List TextChunk :=
  let window := (text.drop offset).take chunkSize
  let adjusted := adjustChunkBoundary window text.length (min (offset + chunkSize) text.length)
  let t := trimChars adjusted
  if t.length = 0 then [] else [⟨t, offset⟩]

/-- One step of the sliding-window loop of `chunkText`, bounded by a fuel
argument so that the definition is structurally recursive and
kernel-computable.  While `offset < text.length`, the boundary-adjusted
window is emitted and the cursor advances by `step`.  The source loop is
unbounded; `chunkLoop` below supplies fuel `text.length - offset`, which
suffices for every `step > 0` (the loop runs at most `text.length - offset`
iterations), and the fuel-independence of the result is proved as the
termination property.  The source loop diverges when `step ≤ 0`; the model
returns `[]` there (the guard `0 < step` matches the spec's "must be > 0"
requirement). -/
def chunkLoopFuel (text : List Char) (chunkSize step : Nat) : Nat → Nat → List TextChunk
  | 0, _ => []
  | fuel + 1, offset =>
    if 0 < step ∧ offset < text.length then
      emitAt text chunkSize offset ++ chunkLoopFuel text chunkSize step fuel (offset + step)
    else []

/-- The sliding-window loop of `chunkText`, entered at `offset`. -/
def chunkLoop (text : List Char) (chunkSize step offset : Nat) : List TextChunk :=
  chunkLoopFuel text chunkSize step (text.length - offset) offset

/-- `chunkText(text, {chunkSize, chunkOverlap})`: empty/whitespace-only
input yields no chunks; input no longer than `chunkSize` yields a single
trimmed chunk at offset 0; otherwise the sliding window with
`step = chunkSize - chunkOverlap` runs. -/
def chunkText (text : List Char) (chunkSize chunkOverlap : Nat) : List TextChunk :=
  if (trimChars text).length = 0 then []
  else if text.length ≤ chunkSize then [⟨trimChars text, 0⟩]
  else chunkLoop text chunkSize (chunkSize - chunkOverlap) 0

/-- Concatenation of the non-overlap regions of successive chunks: every
chunk contributes its first `step` characters, the last chunk contributes
all of its text. -/
def nonOverlapConcat (step : Nat) : List TextChunk → List Char
  | [] => []
  | [c] => c.text
  | c :: rest => c.text.take step ++ nonOverlapConcat step rest

/-- A character that is neither whitespace nor one of the natural-boundary
characters searched by `adjustChunkBoundary`. -/
def plainChar (c : Char) : Bool :=
  !(isWsChar c || c = '\n' || isCJKStop c || isLatinStop c || isCommaStop c)

/-! ## Vector store (`FaissVectorStore` in the faiss-store module)

The store is generic over the chunk payload type `α`: the source stores
`TextChunk` values in its `id → chunk` map but never inspects them.
The FAISS `IndexFlatIP` is modelled as the list of vectors it holds, in
insertion order; the label FAISS reports for a vector is its position in
that list.  Vector components are `ℚ`. -/

/-- `getEmbeddingDimension()`: all-MiniLM-L6-v2 produces 384-dimensional
vectors. -/
def DIMENSION : Nat := 384

/-- The in-memory state of a `FaissVectorStore`: the `IndexFlatIP`
contents, the `documents` map (an ordered `id → chunk` association list,
as serialised by `save`), the `nextId` counter and the dirty flag. -/
structure StoreState (α : Type) where
  indexVecs : List (List ℚ)
  documents : List (Nat × α)
  nextId : Nat
  isDirty : Bool
deriving DecidableEq, Repr

/-- A store as built by the constructor plus a fresh
`new IndexFlatIP(DIMENSION)`: empty index, empty metadata, counter 0. -/
def emptyStore {α : Type} : StoreState α :=
  ⟨[], [], 0, false⟩

/-- What is on disk for the two persistence artifacts.  Each file is
either absent (`none`) or present; a present file either parses to its
typed content (`some (some _)`) or fails to parse / read
(`some none`, covering a failing `IndexFlatIP.read` or `JSON.parse`). -/
structure DiskState (α : Type) where
  indexFile : Option (Option (List (List ℚ)))
  metaFile : Option (Option (Nat × List (Nat × α)))
deriving DecidableEq

/-- Failure conditions of `initialize`/`load`. -/
inductive InitError where
  | missingFiles
  | corrupt
deriving DecidableEq, Repr

/-- `load()`: requires both files to exist, reads the FAISS index and
parses the metadata document, failing if either step fails. -/
def FaissVectorStore.load {α : Type} (d : DiskState α) : Except InitError (StoreState α) :=
  match d.indexFile, d.metaFile with
  | none, _ => .error .missingFiles
  | _, none => .error .missingFiles
  | some none, some _ => .error .corrupt
  | some (some _), some none => .error .corrupt
  | some (some vecs), some (some meta) => .ok ⟨vecs, meta.2, meta.1, false⟩

/-- `initialize()`: if both persistence files exist, load them;
otherwise create a fresh empty index. -/
def FaissVectorStore.init {α : Type} (d : DiskState α) : Except InitError (StoreState α) :=
  if d.indexFile.isSome && d.metaFile.isSome then FaissVectorStore.load d
  else .ok emptyStore

/-- Dimension check applied to a `{chunk, embedding}` item. -/
def dimOk {α : Type} (it : α × List ℚ) : Bool :=
  it.2.length = DIMENSION

/-- `add(chunk, embedding)`: rejects a wrong-dimension embedding with an
error (the thrown `DimensionMismatch`), otherwise assigns `nextId`,
appends the vector to the index, records the metadata entry and marks
the store dirty. -/
def FaissVectorStore.add {α : Type} (s : StoreState α) (chunk : α) (embedding : List ℚ) :
    Except String (StoreState α × Nat) :=
  if embedding.length = DIMENSION then
    .ok (⟨s.indexVecs ++ [embedding], s.documents ++ [(s.nextId, chunk)],
          s.nextId + 1, true⟩, s.nextId)
  else .error "DimensionMismatch"

/-- `addBatch(items)`: per-item dimension validation; failing items are
skipped and omitted from the returned id list; the dirty flag is set
once after the loop. -/
def FaissVectorStore.addBatch {α : Type} (s : StoreState α) :
    List (α × List ℚ) → StoreState α × List Nat
  | [] => ({ s with isDirty := true }, [])
  | (chunk, embedding) :: rest =>
    if embedding.length = DIMENSION then
      let r := FaissVectorStore.addBatch
        { s with
          indexVecs := s.indexVecs ++ [embedding],
          documents := s.documents ++ [(s.nextId, chunk)],
          nextId := s.nextId + 1 } rest
      (r.1, s.nextId :: r.2)
    else FaissVectorStore.addBatch s rest

/-- `getDocumentCount()`: the size of the metadata map. -/
def FaissVectorStore.getDocumentCount {α : Type} (s : StoreState α) : Nat :=
  s.documents.length

/-- `deleteDocument(id)`: removes only the metadata entry and reports
whether it existed; the index itself is untouched. -/
def FaissVectorStore.deleteDocument {α : Type} (s : StoreState α) (id : Nat) :
    StoreState α × Bool :=
  if (s.documents.lookup id).isSome then
    ({ s with documents := s.documents.filter (fun p => p.1 ≠ id), isDirty := true }, true)
  else (s, false)

/-- Inner product of two vectors (cosine similarity of the already
L2-normalized embeddings). -/
def innerProd (a b : List ℚ) : ℚ :=
  ((a.zip b).map (fun p => p.1 * p.2)).sum

/-- Descending-inner-product order on FAISS candidate `(label, score)`
pairs. -/
def ipGE (a b : Nat × ℚ) : Prop := b.2 ≤ a.2

instance : DecidableRel ipGE := fun a b => inferInstanceAs (Decidable (b.2 ≤ a.2))

instance : IsTotal (Nat × ℚ) ipGE := ⟨fun a b => le_total b.2 a.2⟩

instance : IsTrans (Nat × ℚ) ipGE := ⟨fun _ _ _ h1 h2 => le_trans h2 h1⟩

/-- `IndexFlatIP.search(query, k)`, per the flat-index contract the code
relies on: every stored vector is scored by inner product against the
query and the `k` best labels are returned, most similar first.  Labels
are the insertion positions of the vectors. -/
def faissSearch (index : List (List ℚ)) (query : List ℚ) (k : Nat) : List (Nat × ℚ) :=
  (List.insertionSort ipGE ((index.enum).map (fun p => (p.1, innerProd query p.2)))).take k

/-- A search hit: the document id, the distance `1 − similarity`
(smaller is more similar) and the stored chunk. -/
structure SearchResult (α : Type) where
  id : Nat
  distance : ℚ
  chunk : α
deriving DecidableEq, Repr

/-- Conversion of one FAISS hit to a `SearchResult`: the score becomes
the distance `1 − score`; a label absent from the metadata map (a
deleted document) is dropped. -/
def hitToResult {α : Type} (docs : List (Nat × α)) (p : Nat × ℚ) : Option (SearchResult α) :=
  match docs.lookup p.1 with
  | some chunk => some ⟨p.1, 1 - p.2, chunk⟩
  | none => none

/-- `search(queryEmbedding, k)`: empty result on an empty store;
otherwise `k` is clamped to the document count, the index is queried,
scores become distances via `1 − score`, and hits whose id is missing
from the metadata map (deleted documents) are silently skipped. -/
def FaissVectorStore.search {α : Type} (s : StoreState α) (query : List ℚ) (k : Nat) :
    List (SearchResult α) :=
  if s.documents.length = 0 then []
  else (faissSearch s.indexVecs query (min k s.documents.length)).filterMap
    (hitToResult s.documents)

/-- The `addBatch` scenario of the spec: a batch of 5 items of which 2
have a wrong embedding dimension. -/
def c3ScenarioItems : List (Unit × List ℚ) :=
  [((), List.replicate 384 0), ((), List.replicate 10 0), ((), List.replicate 384 0),
   ((), []), ((), List.replicate 384 0)]

/-- `clear()`: fresh index, empty metadata, counter reset to 0, dirty. -/
def FaissVectorStore.clear {α : Type} (_ : StoreState α) : StoreState α :=
  ⟨[], [], 0, true⟩

/-- The id-assigning operations a caller can interleave on an
initialized store (the quantification domain of the id-uniqueness
claim). -/
inductive StoreOp (α : Type) where
  | add (chunk : α) (embedding : List ℚ)
  | addBatch (items : List (α × List ℚ))
  | deleteDocument (id : Nat)

/-- Apply one operation, returning the new state and the ids it
assigned.  A rejected `add` raises `DimensionMismatch` before mutating
anything, so the state is unchanged and no id is consumed. -/
def applyOp {α : Type} (s : StoreState α) : StoreOp α → StoreState α × List Nat
  | .add chunk embedding =>
    match FaissVectorStore.add s chunk embedding with
    | .ok (s', id) => (s', [id])
    | .error _ => (s, [])
  | .addBatch items => FaissVectorStore.addBatch s items
  | .deleteDocument id => ((FaissVectorStore.deleteDocument s id).1, [])

/-- Run a sequence of operations, collecting every assigned id in
assignment order. -/
def runOps {α : Type} (s : StoreState α) : List (StoreOp α) → StoreState α × List Nat
  | [] => (s, [])
  | op :: rest =>
    let r := applyOp s op
    let r' := runOps r.1 rest
    (r'.1, r.2 ++ r'.2)

/-- How many ids one operation assigns. -/
def opIdCount {α : Type} : StoreOp α → Nat
  | .add _ embedding => if embedding.length = DIMENSION then 1 else 0
  | .addBatch items => (items.filter dimOk).length
  | .deleteDocument _ => 0

/-- Total ids assigned by a sequence of operations. -/
def opsIdCount {α : Type} (ops : List (StoreOp α)) : Nat :=
  (ops.map opIdCount).sum

/-- The consecutive id block `[a, a+1, …, a+n-1]`. -/
def idRange (a : Nat) : Nat → List Nat
  | 0 => []
  | n + 1 => a :: idRange (a + 1) n

/-! ## Indexing task queue (`FaissVectorizerService.addTask`) -/

/-- A queued indexing task: its priority and its arrival number (the
position in the order `addTask` was called; ids and `createdAt`
timestamps are opaque). -/
structure QTask where
  priority : Int
  arrival : Nat
deriving DecidableEq, Repr

/-- Descending-priority order used by
`taskQueue.sort((a, b) => b.priority - a.priority)`. -/
def prioGE (a b : QTask) : Prop := b.priority ≤ a.priority

instance : DecidableRel prioGE := fun a b => inferInstanceAs (Decidable (b.priority ≤ a.priority))

instance : IsTotal QTask prioGE := ⟨fun a b => le_total b.priority a.priority⟩

instance : IsTrans QTask prioGE := ⟨fun _ _ _ h1 h2 => le_trans h2 h1⟩

/-- `addTask`: push the new task, then re-sort the queue by descending
priority.  ECMAScript `Array.prototype.sort` is a stable sort, and the
output of a stable sort is unique, so any stable sort models it;
`List.insertionSort` is used here. -/
def addTask (queue : List QTask) (t : QTask) : List QTask :=
  List.insertionSort prioGE (queue ++ [t])

/-- Run a whole sequence of `addTask` calls starting from queue `q`,
numbering arrivals from `n`. -/
def buildQueueAux (q : List QTask) (n : Nat) : List Int → List QTask
  | [] => q
  | p :: ps => buildQueueAux (addTask q ⟨p, n⟩) (n + 1) ps

/-- The pending queue after `addTask` has been called once per listed
priority, in order, starting from the empty queue. -/
def buildQueue (ps : List Int) : List QTask :=
  buildQueueAux [] 0 ps

/-- Equal-priority tasks occur in arrival order. -/
def ArrivalOrdered (q : List QTask) : Prop :=
  q.Pairwise (fun a b => a.priority = b.priority → a.arrival < b.arrival)

/-- The queue invariant maintained by `addTask`: sorted by descending
priority, equal priorities in arrival order, and every arrival number
below the running arrival counter. -/
def QueueInvariant (q : List QTask) (n : Nat) : Prop :=
  q.Sorted prioGE ∧ ArrivalOrdered q ∧ ∀ x ∈ q, x.arrival < n

/-! ## RAG inject hook handler (`dist/hooks/rag-inject/handler.js`) -/

/-- One retrieval hit as consumed by the handler (`r.chunk.text`,
`r.chunk.sourcePath`, `r.distance`). -/
structure RagResult where
  text : List Char
  sourcePath : List Char
  distance : ℚ
deriving DecidableEq, Repr

/-- Key used for deduplication: the first 200 characters of the trimmed
passage text. -/
def dedupKey (r : RagResult) : List Char :=
  (trimChars r.text).take 200

/-- The `filter` with a `seen` set: keep the first result of each
duplicate group, preserving order. -/
def dedupAux (seen : List (List Char)) : List RagResult → List RagResult
  | [] => []
  | r :: rest =>
    if dedupKey r ∈ seen then dedupAux seen rest
    else r :: dedupAux (dedupKey r :: seen) rest

/-- Render a rational with two decimal places (the `toFixed(2)` applied
to the relevance score; decimal rounding of the underlying float is
approximated by rounding half away from zero). -/
def toFixed2 (q : ℚ) : List Char :=
  let scaled : Int := if 0 ≤ q then ⌊q * 100 + 1 / 2⌋ else -⌊-q * 100 + 1 / 2⌋
  let m := scaled.natAbs
  let sign := if scaled < 0 then ['-'] else []
  let frac := m % 100
  sign ++ (Nat.repr (m / 100)).data ++ ['.'] ++
    (if frac < 10 then '0' :: (Nat.repr frac).data else (Nat.repr frac).data)

/-- Index just past the last occurrence of `marker` in `l`, if any. -/
def lastMarkerEnd (marker : List Char) : List Char → Option Nat
  | [] => none
  | c :: rest =>
    match lastMarkerEnd marker rest with
    | some j => some (j + 1)
    | none => if (c :: rest).take marker.length = marker then some marker.length else none

/-- `sourcePath.replace(/^.*\/\.openclaw\/workspace\//, '')`: strip
everything up to and including the last occurrence of the workspace
marker. -/
def stripWorkspaceDir (path : List Char) : List Char :=
  match lastMarkerEnd ("/.openclaw/workspace/".data) path with
  | some i => path.drop i
  | none => path

/-- One numbered item of the formatted listing. -/
def ragItem (idx : Nat) (r : RagResult) : List Char :=
  ('[' :: (Nat.repr (idx + 1)).data) ++ "] (來源: ".data ++ stripWorkspaceDir r.sourcePath ++
    ", 相關度: ".data ++ toFixed2 (1 - r.distance) ++ ")\n".data ++ trimChars r.text

/-- Join rendered items with blank lines. -/
def joinItems : List (List Char) → List Char
  | [] => []
  | [x] => x
  | x :: rest => x ++ "\n\n".data ++ joinItems rest

/-- `formatRagResultsXml(results)`: dedup by passage text, then render
the numbered `<historical_memory>` block; empty input (or empty output
of dedup) renders the empty string. -/
def formatRagResultsXml (results : List RagResult) : List Char :=
  if results.length = 0 then []
  else
    let deduped := dedupAux [] results
    if deduped.length = 0 then []
    else
      "<historical_memory>\n以下是與當前對話相關的歷史記憶片段：\n\n".data ++
        joinItems (deduped.enum.map (fun p => ragItem p.1 p.2)) ++
        "\n</historical_memory>".data

/-- The module-level cache slot of the handler: last query string, last
formatted result and its capture time. -/
structure CacheState where
  lastQuery : Option (List Char)
  lastResult : Option (List Char)
  lastTimestamp : Nat
deriving DecidableEq, Repr

/-- `CACHE_TTL`: 5 seconds. -/
def CACHE_TTL : Nat := 5000

/-- `MIN_QUERY_LENGTH`: queries shorter than 5 characters are skipped. -/
def MIN_QUERY_LENGTH : Nat := 5

/-- `ALLOWED_AGENTS`. -/
def allowedAgents : List (List Char) :=
  ["main".data, "main-lite".data]

/-- The cache check `lastQuery === userQuery && lastResult &&
(now - lastTimestamp) < CACHE_TTL` (a `null` or empty `lastResult` is
falsy). -/
def cacheHit (st : CacheState) (q : List Char) (now : Nat) : Bool :=
  match st.lastQuery, st.lastResult with
  | some q', some r => q' = q && r ≠ [] && now - st.lastTimestamp < CACHE_TTL
  | _, _ => false

/-- One invocation of the hook handler.  `query` is the extracted last
user message (`none` when absent); `retrieval` is the outcome
`performRagRetrieval` would produce if called (`none` models a `null`
return: service missing, uninitialized, empty store or error).  Returns
the new cache state, the `prependContext` payload (if any) and whether
`performRagRetrieval` — and hence the embedding call and the
vector-store search — was invoked.  (The source checks the agent before
extracting the query; with an absent query both checks produce the same
`(st, none, false)` outcome, so casing on the query first is
value-faithful.) -/
def handlerStep (st : CacheState) (agentId : List Char) :
    Option (List Char) → Nat → Option (List RagResult) →
      CacheState × Option (List Char) × Bool
  | none, _, _ => (st, none, false)
  | some q, now, retrieval =>
    if ¬ allowedAgents.contains agentId then (st, none, false)
    else if q.length < MIN_QUERY_LENGTH then (st, none, false)
    else if cacheHit st q now then (st, st.lastResult, false)
    else
      match retrieval with
      | none => (st, none, true)
      | some results =>
        if results.length = 0 then (st, none, true)
        else
          (⟨some q, some (formatRagResultsXml results), now⟩,
           some (formatRagResultsXml results), true)

/-! ## Retrieval gate (`shouldPerformRag` in `dist/components/rag-injector.js`) -/

/-- The Unicode `Emoji` binary property as matched by
`/^[\p{Emoji}\s]+$/u`, restricted to the code points this development
evaluates: in the ASCII range exactly `#`, `*` and the digits `0`-`9`
carry `Emoji=Yes` (UTS #51 emoji-data); the non-ASCII emoji blocks are
represented by the main ranges. -/
def emojiProp (c : Char) : Bool :=
  c = '#' || c = '*' || (48 ≤ c.toNat && c.toNat ≤ 57) ||
    (0x1F300 ≤ c.toNat && c.toNat ≤ 0x1FAFF) ||
    (0x2600 ≤ c.toNat && c.toNat ≤ 0x27BF) ||
    (0x1F000 ≤ c.toNat && c.toNat ≤ 0x1F2FF)

/-- `\s` of the emoji-only regex (ASCII whitespace as above). -/
def regexWs (c : Char) : Bool := isWsChar c

/-- The greeting list (each entry compared against the trimmed,
lower-cased query). -/
def greetings : List (List Char) :=
  ["hi".data, "hello".data, "hey".data, "你好".data, "嗨".data, "哈囉".data,
   "good morning".data, "good evening".data, "good night".data,
   "早安".data, "午安".data, "晚安".data, "早".data, "晚".data]

/-- `shouldPerformRag(query)`: trim and lower-case, then reject
commands, short queries, greetings and emoji-only messages. -/
def shouldPerformRag (query : List Char) : Bool :=
  let trimmed := (trimChars query).map Char.toLower
  if trimmed.take 1 = ['/'] then false
  else if trimmed.length < 5 then false
  else if trimmed ∈ greetings then false
  else if trimmed ≠ [] && trimmed.all (fun c => emojiProp c || regexWs c) then false
  else true

/-! ## Supporting lemmas: chunker -/

theorem chunkLoopFuel_stop (text : List Char) (cs step fuel o : Nat)
    (h : ¬(0 < step ∧ o < text.length)) :
    chunkLoopFuel text cs step fuel o = [] := by
  cases fuel with
  | zero => rfl
  | succ f => simp [chunkLoopFuel, h]

theorem chunkLoopFuel_succ (text : List Char) (cs step f o : Nat)
    (hs : 0 < step) (ho : o < text.length) :
    chunkLoopFuel text cs step (f + 1) o =
      emitAt text cs o ++ chunkLoopFuel text cs step f (o + step) := by
  simp [chunkLoopFuel, hs, ho]

theorem chunkLoopFuel_congr (text : List Char) (cs step : Nat) (hs : 0 < step) :
    ∀ f1 f2 o, text.length - o ≤ f1 → text.length - o ≤ f2 →
      chunkLoopFuel text cs step f1 o = chunkLoopFuel text cs step f2 o := by
  intro f1
  induction f1 with
  | zero =>
    intro f2 o h1 _
    have hno : ¬(0 < step ∧ o < text.length) := by omega
    rw [chunkLoopFuel_stop text cs step 0 o hno, chunkLoopFuel_stop text cs step f2 o hno]
  | succ f ih =>
    intro f2 o h1 h2
    by_cases ho : o < text.length
    · obtain ⟨f2', rfl⟩ : ∃ f2', f2 = f2' + 1 := by
        cases f2 with
        | zero => omega
        | succ k => exact ⟨k, rfl⟩
      rw [chunkLoopFuel_succ text cs step f o hs ho,
          chunkLoopFuel_succ text cs step f2' o hs ho]
      congr 1
      exact ih f2' (o + step) (by omega) (by omega)
    · have hno : ¬(0 < step ∧ o < text.length) := by omega
      rw [chunkLoopFuel_stop text cs step _ o hno, chunkLoopFuel_stop text cs step f2 o hno]

theorem emitAt_length_le (text : List Char) (cs o : Nat) :
    (emitAt text cs o).length ≤ 1 := by
  unfold emitAt
  dsimp only
  split <;> simp

theorem chunkLoopFuel_length_le (text : List Char) (cs step : Nat) :
    ∀ fuel o, (chunkLoopFuel text cs step fuel o).length ≤ fuel := by
  intro fuel
  induction fuel with
  | zero => intro o; simp [chunkLoopFuel]
  | succ f ih =>
    intro o
    by_cases h : 0 < step ∧ o < text.length
    · rw [chunkLoopFuel_succ text cs step f o h.1 h.2, List.length_append]
      have := emitAt_length_le text cs o
      have := ih (o + step)
      omega
    · rw [chunkLoopFuel_stop text cs step _ o h]
      simp

theorem plainChar_parts {c : Char} (h : plainChar c = true) :
    isWsChar c = false ∧ c ≠ '\n' ∧ isCJKStop c = false ∧
      isLatinStop c = false ∧ isCommaStop c = false := by
  simp only [plainChar, Bool.not_eq_true', Bool.or_eq_false_iff, decide_eq_false_iff_not] at h
  exact ⟨h.1.1.1.1, h.1.1.1.2, h.1.1.2, h.1.2, h.2⟩

theorem lastNNIdx_eq_none : ∀ {l : List Char}, (∀ c ∈ l, c ≠ '\n') → lastNNIdx l = none
  | [], _ => rfl
  | [_], _ => rfl
  | c :: d :: rest, h => by
    have hc : c ≠ '\n' := h c (by simp)
    have ih := lastNNIdx_eq_none (l := d :: rest) (fun x hx => h x (by simp [List.mem_cons] at hx ⊢; tauto))
    rw [lastNNIdx, if_neg (by simp [hc]), ih]
    rfl

theorem lastIdxWhere_eq_none {p : Char → Bool} :
    ∀ {l : List Char}, (∀ c ∈ l, p c = false) → lastIdxWhere p l = none
  | [], _ => rfl
  | c :: rest, h => by
    have ih := lastIdxWhere_eq_none (p := p) (l := rest)
      (fun x hx => h x (List.mem_cons_of_mem _ hx))
    rw [lastIdxWhere, ih]
    simp [h c (List.mem_cons_self c rest)]

theorem dropWhile_eq_self_of_false {p : Char → Bool} {l : List Char}
    (h : ∀ c ∈ l, p c = false) : l.dropWhile p = l := by
  cases l with
  | nil => rfl
  | cons c rest =>
    rw [List.dropWhile_cons, if_neg]
    simp [h c (List.mem_cons_self c rest)]

theorem trimChars_eq_self {l : List Char} (h : ∀ c ∈ l, isWsChar c = false) :
    trimChars l = l := by
  unfold trimChars
  rw [dropWhile_eq_self_of_false h,
      dropWhile_eq_self_of_false (fun c hc => h c (List.mem_reverse.mp hc)),
      List.reverse_reverse]

theorem adjustChunkBoundary_eq_self {w : List Char}
    (h : ∀ c ∈ w, plainChar c = true) (fl eo : Nat) :
    adjustChunkBoundary w fl eo = w := by
  unfold adjustChunkBoundary
  split
  · rfl
  · have hr : ∀ c ∈ w.drop (3 * w.length / 4), plainChar c = true :=
      fun c hc => h c (List.drop_subset _ _ hc)
    rw [lastNNIdx_eq_none (fun c hc => (plainChar_parts (hr c hc)).2.1),
        lastIdxWhere_eq_none (fun c hc => by
          simpa using (plainChar_parts (hr c hc)).2.1),
        lastIdxWhere_eq_none (fun c hc => (plainChar_parts (hr c hc)).2.2.1),
        lastIdxWhere_eq_none (fun c hc => (plainChar_parts (hr c hc)).2.2.2.1),
        lastIdxWhere_eq_none (fun c hc => (plainChar_parts (hr c hc)).2.2.2.2)]

theorem emitAt_plain (text : List Char) (hplain : ∀ c ∈ text, plainChar c = true)
    (cs o : Nat) (hcs : 0 < cs) (ho : o < text.length) :
    emitAt text cs o = [⟨(text.drop o).take cs, o⟩] := by
  have hw : ∀ c ∈ (text.drop o).take cs, plainChar c = true :=
    fun c hc => hplain c (List.drop_subset _ _ (List.take_subset _ _ hc))
  unfold emitAt
  dsimp only
  rw [adjustChunkBoundary_eq_self hw,
      trimChars_eq_self (fun c hc => (plainChar_parts (hw c hc)).1)]
  rw [if_neg]
  simp only [List.length_take, List.length_drop]
  omega

theorem chunkLoopFuel_plain_concat (text : List Char)
    (hplain : ∀ c ∈ text, plainChar c = true) (cs step : Nat)
    (hs : 0 < step) (hsc : step ≤ cs) :
    ∀ fuel o, text.length - o ≤ fuel → o < text.length →
      nonOverlapConcat step (chunkLoopFuel text cs step fuel o) = text.drop o := by
  intro fuel
  induction fuel with
  | zero => intro o h ho; omega
  | succ f ih =>
    intro o hf ho
    rw [chunkLoopFuel_succ text cs step f o hs ho,
        emitAt_plain text hplain cs o (lt_of_lt_of_le hs hsc) ho]
    by_cases h2 : o + step < text.length
    · have htail := ih (o + step) (by omega) h2
      have hne : chunkLoopFuel text cs step f (o + step) ≠ [] := by
        intro h0
        rw [h0] at htail
        have : (text.drop (o + step)).length = 0 := by
          rw [← htail]; rfl
        simp only [List.length_drop] at this
        omega
      obtain ⟨hd, tl, heq⟩ := List.exists_cons_of_ne_nil hne
      rw [heq, List.singleton_append]
      show ((text.drop o).take cs).take step ++ nonOverlapConcat step (hd :: tl) = text.drop o
      rw [← heq, htail, List.take_take, min_eq_left hsc]
      have hdd : text.drop (o + step) = (text.drop o).drop step := by
        simp [List.drop_drop, Nat.add_comm]
      rw [hdd, List.take_append_drop]
    · rw [chunkLoopFuel_stop text cs step f (o + step) (by omega), List.append_nil]
      show (text.drop o).take cs = text.drop o
      rw [List.take_of_length_le]
      simp only [List.length_drop]
      omega

/-! ## Claim theorems: chunker -/

/-- C9: for every input whose trimmed form is non-empty and whose length
is at most the target size, `chunkText` returns exactly one chunk whose
text is the trimmed input at offset 0; for every empty or
whitespace-only input it returns the empty sequence. -/
theorem c9_short_input_single_chunk (text : List Char) (chunkSize chunkOverlap : Nat) :
    (trimChars text = [] → chunkText text chunkSize chunkOverlap = []) ∧
    (trimChars text ≠ [] → text.length ≤ chunkSize →
      chunkText text chunkSize chunkOverlap = [⟨trimChars text, 0⟩]) := by
  constructor
  · intro h
    simp [chunkText, h]
  · intro h hlen
    rw [chunkText, if_neg, if_pos hlen]
    simp [List.length_eq_zero, h]

/-- Witness for `c9_short_input_single_chunk`: a whitespace-only input
yields no chunks; a 4-character input with target size 5 yields the
single trimmed chunk at offset 0. -/
theorem c9_short_input_single_chunk_witness :
    chunkText "   ".data 5 1 = [] ∧
    chunkText " ab ".data 5 1 = [⟨"ab".data, 0⟩] :=
  ⟨(c9_short_input_single_chunk "   ".data 5 1).1 (by decide),
   by
    have := (c9_short_input_single_chunk " ab ".data 5 1).2 (by decide) (by decide)
    rw [this]
    decide⟩

/-- C6: for every text and every options value with positive step
`chunkSize − chunkOverlap`, the sliding-window scan terminates: past the
end of the text the loop yields nothing, below it the loop emits the
window at the cursor and re-enters exactly at `offset + step`, and the
number of emitted chunks is bounded by the remaining length (so the
cursor strictly increases by `step` each iteration until it reaches the
text end). -/
theorem c6_chunk_loop_terminates (text : List Char) (chunkSize chunkOverlap : Nat)
    (hstep : 0 < chunkSize - chunkOverlap) :
    (∀ o, text.length ≤ o → chunkLoop text chunkSize (chunkSize - chunkOverlap) o = []) ∧
    (∀ o, o < text.length →
      chunkLoop text chunkSize (chunkSize - chunkOverlap) o =
        emitAt text chunkSize o ++
          chunkLoop text chunkSize (chunkSize - chunkOverlap) (o + (chunkSize - chunkOverlap))) ∧
    (∀ o, (chunkLoop text chunkSize (chunkSize - chunkOverlap) o).length ≤
      text.length - o) := by
  refine ⟨fun o ho => ?_, fun o ho => ?_, fun o => ?_⟩
  · exact chunkLoopFuel_stop text chunkSize _ _ o (by omega)
  · unfold chunkLoop
    obtain ⟨k, hk⟩ : ∃ k, text.length - o = k + 1 := ⟨text.length - o - 1, by omega⟩
    rw [hk, chunkLoopFuel_succ text chunkSize _ k o hstep ho]
    congr 1
    exact chunkLoopFuel_congr text chunkSize _ hstep k _ _ (by omega) (by omega)
  · exact le_trans (chunkLoopFuel_length_le text chunkSize _ _ o) (le_refl _)

/-- Witness for `c6_chunk_loop_terminates` at a concrete text and
options: step `3 − 1 = 2` is positive, the loop stops at the text end
and unfolds one emission step at offset 0. -/
theorem c6_chunk_loop_terminates_witness :
    (0 < 3 - 1) ∧
    chunkLoop "abcde".data 3 (3 - 1) 5 = [] ∧
    chunkLoop "abcde".data 3 (3 - 1) 0 =
      emitAt "abcde".data 3 0 ++ chunkLoop "abcde".data 3 (3 - 1) (0 + (3 - 1)) :=
  ⟨by decide,
   (c6_chunk_loop_terminates "abcde".data 3 1 (by decide)).1 5 (by decide),
   (c6_chunk_loop_terminates "abcde".data 3 1 (by decide)).2.1 0 (by decide)⟩

/-- C2 counterexample: for the input `"abcdef.hXYZ"` with target size 8
and overlap 0 the boundary adjustment shrinks the first window to
`"abcdef."`, the cursor still advances by the full step of 8, and the
character `'h'` is lost from every chunk even though the declared
overlap is 0, so concatenating the non-overlap regions of the chunks
does not reconstruct the input. -/
theorem c2_reconstruction_counterexample :
    nonOverlapConcat (8 - 0) (chunkText "abcdef.hXYZ".data 8 0) ≠ "abcdef.hXYZ".data ∧
    (chunkText "abcdef.hXYZ".data 8 0).all (fun c => decide ('h' ∉ c.text)) = true := by
  decide

/-- C2 (amended): for inputs containing no whitespace and no
natural-boundary characters (so that no window is shrunk and no
trimming applies), and any overlap smaller than the target size,
concatenating the non-overlap regions of the successive chunks — each
chunk's first `step` characters and the last chunk in full —
reconstructs the original text exactly. -/
theorem c2_reconstruction_plain (text : List Char) (chunkSize chunkOverlap : Nat)
    (hplain : ∀ c ∈ text, plainChar c = true) (hov : chunkOverlap < chunkSize) :
    nonOverlapConcat (chunkSize - chunkOverlap) (chunkText text chunkSize chunkOverlap) =
      text := by
  have htrim : trimChars text = text :=
    trimChars_eq_self (fun c hc => (plainChar_parts (hplain c hc)).1)
  by_cases h0 : (trimChars text).length = 0
  · have : text = [] := by
      rw [htrim] at h0
      exact List.length_eq_zero.mp h0
    rw [chunkText, if_pos h0, this]
    rfl
  · by_cases hlen : text.length ≤ chunkSize
    · rw [chunkText, if_neg h0, if_pos hlen, htrim]
      rfl
    · rw [chunkText, if_neg h0, if_neg hlen]
      have h1 : 0 < text.length := by
        rcases Nat.eq_zero_or_pos text.length with h | h
        · exact absurd (by rw [htrim]; omega) h0
        · exact h
      have := chunkLoopFuel_plain_concat text hplain chunkSize (chunkSize - chunkOverlap)
        (by omega) (by omega) (text.length - 0) 0 (by omega) h1
      simpa using this

/-- Witness for `c2_reconstruction_plain`: a plain 8-character text,
target size 3, overlap 1. -/
theorem c2_reconstruction_plain_witness :
    nonOverlapConcat (3 - 1) (chunkText "abcdefgh".data 3 1) = "abcdefgh".data :=
  c2_reconstruction_plain "abcdefgh".data 3 1 (by decide) (by decide)

/-! ## Supporting lemmas: vector store -/

theorem idRange_length : ∀ (n a : Nat), (idRange a n).length = n
  | 0, _ => rfl
  | n + 1, a => by
    rw [idRange, List.length_cons, idRange_length n (a + 1)]

theorem idRange_append : ∀ (m a n : Nat),
    idRange a m ++ idRange (a + m) n = idRange a (m + n)
  | 0, a, n => by simp [idRange]
  | m + 1, a, n => by
    rw [idRange, List.cons_append]
    have := idRange_append m (a + 1) n
    rw [show a + (m + 1) = a + 1 + m by omega, this,
        show m + 1 + n = (m + n) + 1 by omega, idRange]

theorem idRange_chain' : ∀ (n a : Nat), (idRange a n).Chain' (· < ·)
  | 0, _ => List.chain'_nil
  | 1, a => List.chain'_singleton a
  | n + 2, a => by
    have ih := idRange_chain' (n + 1) (a + 1)
    rw [idRange, idRange]
    rw [idRange] at ih
    exact List.chain'_cons.mpr ⟨by omega, ih⟩

theorem addBatch_spec {α : Type} (s : StoreState α) (items : List (α × List ℚ)) :
    FaissVectorStore.addBatch s items =
      ({ indexVecs := s.indexVecs ++ (items.filter dimOk).map (fun it => it.2),
         documents := s.documents ++
           (idRange s.nextId ((items.filter dimOk).length)).zip
             ((items.filter dimOk).map (fun it => it.1)),
         nextId := s.nextId + (items.filter dimOk).length,
         isDirty := true },
       idRange s.nextId ((items.filter dimOk).length)) := by
  induction items generalizing s with
  | nil => simp [FaissVectorStore.addBatch, idRange]
  | cons it rest ih =>
    obtain ⟨chunk, emb⟩ := it
    by_cases hd : emb.length = DIMENSION
    · rw [FaissVectorStore.addBatch, if_pos hd, ih]
      have hfil : ((chunk, emb) :: rest).filter dimOk = (chunk, emb) :: rest.filter dimOk := by
        simp [List.filter_cons, dimOk, hd]
      rw [hfil]
      simp only [List.map_cons, List.length_cons, idRange, List.zip_cons_cons,
        Prod.mk.injEq, StoreState.mk.injEq, List.append_assoc, List.singleton_append,
        and_true, true_and]
      omega
    · rw [FaissVectorStore.addBatch, if_neg hd, ih]
      have hfil : ((chunk, emb) :: rest).filter dimOk = rest.filter dimOk := by
        simp [List.filter_cons, dimOk, hd]
      rw [hfil]

theorem applyOp_spec {α : Type} (s : StoreState α) (op : StoreOp α) :
    (applyOp s op).2 = idRange s.nextId (opIdCount op) ∧
    (applyOp s op).1.nextId = s.nextId + opIdCount op := by
  cases op with
  | add chunk emb =>
    by_cases hd : emb.length = DIMENSION
    · simp [applyOp, FaissVectorStore.add, hd, opIdCount, idRange]
    · simp [applyOp, FaissVectorStore.add, hd, opIdCount, idRange]
  | addBatch items =>
    rw [show applyOp s (StoreOp.addBatch items) = FaissVectorStore.addBatch s items from rfl,
        addBatch_spec]
    exact ⟨rfl, rfl⟩
  | deleteDocument id =>
    by_cases hid : (s.documents.lookup id).isSome
    · simp [applyOp, FaissVectorStore.deleteDocument, hid, opIdCount, idRange]
    · simp [applyOp, FaissVectorStore.deleteDocument, hid, opIdCount, idRange]

theorem runOps_spec {α : Type} (s : StoreState α) (ops : List (StoreOp α)) :
    (runOps s ops).2 = idRange s.nextId (opsIdCount ops) ∧
    (runOps s ops).1.nextId = s.nextId + opsIdCount ops := by
  induction ops generalizing s with
  | nil => simp [runOps, opsIdCount, idRange]
  | cons op rest ih =>
    have hop := applyOp_spec s op
    have hrest := ih (applyOp s op).1
    simp only [runOps, opsIdCount, List.map_cons, List.sum_cons]
    constructor
    · rw [hop.1, hrest.1, hop.2, idRange_append]
      simp [opsIdCount]
    · rw [hrest.2, hop.2]
      simp [opsIdCount]
      omega

theorem searchResults_distance_sublist {α : Type} (docs : List (Nat × α)) :
    ∀ l : List (Nat × ℚ),
      ((l.filterMap (hitToResult docs)).map SearchResult.distance).Sublist
        (l.map (fun p => 1 - p.2))
  | [] => by simp
  | p :: rest => by
    rw [List.filterMap_cons, List.map_cons]
    cases h : docs.lookup p.1 with
    | none =>
      rw [show hitToResult docs p = none by simp [hitToResult, h]]
      exact (searchResults_distance_sublist docs rest).cons _
    | some chunk =>
      rw [show hitToResult docs p = some ⟨p.1, 1 - p.2, chunk⟩ by simp [hitToResult, h]]
      exact (searchResults_distance_sublist docs rest).cons₂ _

theorem faissSearch_sorted (index : List (List ℚ)) (query : List ℚ) (k : Nat) :
    (faissSearch index query k).Sorted ipGE :=
  List.Pairwise.sublist (List.take_sublist _ _)
    (List.sorted_insertionSort ipGE _)

theorem faissSearch_length_le (index : List (List ℚ)) (query : List ℚ) (k : Nat) :
    (faissSearch index query k).length ≤ k := by
  rw [faissSearch, List.length_take]
  exact min_le_left _ _

/-! ## Claim theorems: vector store -/

/-- C1 counterexample: with the index blob present (and readable) but
the metadata document absent — exactly one of the two persistence files
present — `initialize()` does not fail with a `CorruptIndex` condition:
it silently creates a fresh empty index. -/
theorem c1_lone_file_counterexample :
    (DiskState.indexFile (α := Unit) ⟨some (some []), none⟩).isSome = true ∧
    (DiskState.metaFile (α := Unit) ⟨some (some []), none⟩).isSome = false ∧
    FaissVectorStore.init (α := Unit) ⟨some (some []), none⟩ = .ok emptyStore :=
  ⟨rfl, rfl, rfl⟩

/-- C1 (amended): `initialize()` performs a load only when both
persistence files are present, failing with a corrupt-index condition
when a present file fails to parse; it creates a fresh empty index
whenever at least one of the two files is absent — including when
exactly one is present, the case the original claim required to fail. -/
theorem c1_init_load_or_fresh {α : Type} (d : DiskState α) :
    ((d.indexFile = none ∨ d.metaFile = none) →
      FaissVectorStore.init d = .ok emptyStore) ∧
    (∀ vecs nid docs, d.indexFile = some (some vecs) →
      d.metaFile = some (some (nid, docs)) →
      FaissVectorStore.init d = .ok ⟨vecs, docs, nid, false⟩) ∧
    ((d.indexFile = some none ∧ d.metaFile.isSome) ∨
      (d.indexFile.isSome ∧ d.metaFile = some none) →
      FaissVectorStore.init d = .error .corrupt) := by
  rcases d with ⟨i, m⟩
  rcases i with _ | (_ | vecs) <;> rcases m with _ | (_ | ⟨nid0, docs0⟩) <;>
    simp [FaissVectorStore.init, FaissVectorStore.load, emptyStore]

/-- Witness for `c1_init_load_or_fresh`: both files absent gives a fresh
store; a well-formed pair loads; a present-but-unreadable index next to
a well-formed metadata file is a corrupt-index failure. -/
theorem c1_init_load_or_fresh_witness :
    FaissVectorStore.init (α := Unit) ⟨none, none⟩ = .ok emptyStore ∧
    FaissVectorStore.init (α := Unit)
        ⟨some (some [[1]]), some (some (7, [(0, ())]))⟩ =
      .ok ⟨[[1]], [(0, ())], 7, false⟩ ∧
    FaissVectorStore.init (α := Unit) ⟨some none, some (some (0, []))⟩ =
      .error .corrupt :=
  ⟨(c1_init_load_or_fresh _).1 (Or.inl rfl),
   (c1_init_load_or_fresh _).2.1 [[1]] 7 [(0, ())] rfl rfl,
   (c1_init_load_or_fresh _).2.2 (Or.inl ⟨rfl, rfl⟩)⟩

set_option maxRecDepth 8192 in
/-- C3: `addBatch` stores exactly the items whose embedding length
equals the configured dimension (384), appending them to the metadata
map with their freshly assigned consecutive ids, returns those ids in
order, and skips dimension-mismatched items (no exception is modelled:
the operation is total); in particular the 5-item batch with 2
mismatched embeddings yields exactly 3 stored ids. -/
theorem c3_addBatch_partial_success :
    (∀ (α : Type) (s : StoreState α) (items : List (α × List ℚ)),
      (FaissVectorStore.addBatch s items).2 =
        idRange s.nextId ((items.filter dimOk).length) ∧
      (FaissVectorStore.addBatch s items).1.documents =
        s.documents ++ (idRange s.nextId ((items.filter dimOk).length)).zip
          ((items.filter dimOk).map (fun it => it.1)) ∧
      (FaissVectorStore.addBatch s items).2.length = (items.filter dimOk).length) ∧
    (FaissVectorStore.addBatch (emptyStore (α := Unit)) c3ScenarioItems).2.length = 3 := by
  constructor
  · intro α s items
    rw [addBatch_spec]
    exact ⟨rfl, rfl, idRange_length _ _⟩
  · rw [addBatch_spec, idRange_length]
    decide

/-- C4: `search` returns at most `min k documentCount` results, returns
the empty sequence on a store with zero documents, and the returned
distances (`1 − similarity`) are in non-decreasing order (most similar
first). -/
theorem c4_search_clamped_and_sorted {α : Type} (s : StoreState α) (query : List ℚ)
    (k : Nat) :
    (FaissVectorStore.search s query k).length ≤
      min k (FaissVectorStore.getDocumentCount s) ∧
    (FaissVectorStore.getDocumentCount s = 0 →
      FaissVectorStore.search s query k = []) ∧
    ((FaissVectorStore.search s query k).map SearchResult.distance).Sorted (· ≤ ·) := by
  by_cases hd : s.documents.length = 0
  · rw [show FaissVectorStore.search s query k = [] by
      simp [FaissVectorStore.search, hd]]
    exact ⟨by simp, fun _ => rfl, List.sorted_nil⟩
  · have hsearch : FaissVectorStore.search s query k =
        (faissSearch s.indexVecs query (min k s.documents.length)).filterMap
          (hitToResult s.documents) := by
      simp [FaissVectorStore.search, hd]
    refine ⟨?_, ?_, ?_⟩
    · rw [hsearch]
      calc ((faissSearch s.indexVecs query (min k s.documents.length)).filterMap
              (hitToResult s.documents)).length
          ≤ (faissSearch s.indexVecs query (min k s.documents.length)).length :=
            List.length_filterMap_le _ _
        _ ≤ min k s.documents.length := faissSearch_length_le _ _ _
        _ = min k (FaissVectorStore.getDocumentCount s) := rfl
    · intro h0
      exact absurd h0 hd
    · rw [hsearch]
      have hsorted : ((faissSearch s.indexVecs query
          (min k s.documents.length)).map (fun p => 1 - p.2)).Pairwise (· ≤ ·) := by
        rw [List.pairwise_map]
        exact (faissSearch_sorted s.indexVecs query _).imp
          (fun hab => by
            simp only [ipGE] at hab
            linarith)
      exact List.Pairwise.sublist (searchResults_distance_sublist s.documents _) hsorted

/-- Witness for `c4_search_clamped_and_sorted`: on an empty store the
implication yields the empty result. -/
theorem c4_search_clamped_and_sorted_witness :
    FaissVectorStore.search (emptyStore (α := Unit)) [] 5 = [] :=
  (c4_search_clamped_and_sorted (emptyStore (α := Unit)) [] 5).2.1 rfl

/-- C5: over every sequence of `add`, `addBatch` and `deleteDocument`
operations, ids are assigned from the single monotonically increasing
`nextId` counter: the assigned ids form the consecutive block starting
at the initial counter, the counter advances by exactly the number of
assignments (deletion never decrements it), and the assigned ids are
strictly increasing — an id, once assigned, is never assigned again,
even after its document is deleted. -/
theorem c5_ids_never_reused {α : Type} (s : StoreState α) (ops : List (StoreOp α)) :
    (runOps s ops).2 = idRange s.nextId (opsIdCount ops) ∧
    (runOps s ops).1.nextId = s.nextId + opsIdCount ops ∧
    (runOps s ops).2.Chain' (· < ·) := by
  obtain ⟨h1, h2⟩ := runOps_spec s ops
  exact ⟨h1, h2, h1 ▸ idRange_chain' _ _⟩

/-! ## Supporting lemmas: task queue -/

theorem orderedInsert_of_forall {x : QTask} :
    ∀ {xs : List QTask}, (∀ y ∈ xs, prioGE x y) →
      List.orderedInsert prioGE x xs = x :: xs
  | [], _ => rfl
  | y :: ys, h => by
    rw [List.orderedInsert, if_pos (h y (List.mem_cons_self y ys))]

theorem dropWhile_not_ahead {t : QTask} :
    ∀ {q : List QTask}, q.Sorted prioGE →
      ∀ y ∈ q.dropWhile (fun x => decide (prioGE x t)), ¬ prioGE y t
  | [], _ => by simp
  | x :: xs, h => by
    by_cases hxt : prioGE x t
    · rw [List.dropWhile_cons, if_pos (by simpa using hxt)]
      exact dropWhile_not_ahead h.of_cons
    · rw [List.dropWhile_cons, if_neg (by simpa using hxt)]
      intro y hy
      rcases List.mem_cons.mp hy with rfl | hy'
      · exact hxt
      · intro hyt
        exact hxt (le_trans hyt (List.rel_of_sorted_cons h y hy'))

theorem insertionSort_append_singleton (t : QTask) :
    ∀ {q : List QTask}, q.Sorted prioGE →
      List.insertionSort prioGE (q ++ [t]) =
        q.takeWhile (fun x => decide (prioGE x t)) ++
          t :: q.dropWhile (fun x => decide (prioGE x t))
  | [], _ => by simp [List.insertionSort, List.orderedInsert]
  | x :: xs, h => by
    have hx : ∀ y ∈ xs, prioGE x y := List.rel_of_sorted_cons h
    have ih := insertionSort_append_singleton t h.of_cons
    rw [List.cons_append, List.insertionSort, ih]
    by_cases hxt : prioGE x t
    · rw [List.takeWhile_cons, List.dropWhile_cons, if_pos (by simpa using hxt),
          if_pos (by simpa using hxt)]
      cases hpre : xs.takeWhile (fun x => decide (prioGE x t)) with
      | nil =>
        rw [List.nil_append, List.orderedInsert, if_pos hxt]
        rfl
      | cons y ys =>
        have hy : y ∈ xs := by
          have : y ∈ xs.takeWhile (fun x => decide (prioGE x t)) := by
            rw [hpre]; exact List.mem_cons_self y ys
          exact List.takeWhile_subset _ this
        rw [List.cons_append, List.orderedInsert, if_pos (hx y hy)]
        rfl
    · have hxs : ∀ y ∈ xs, ¬ prioGE y t := fun y hy hyt =>
        hxt (le_trans hyt (hx y hy))
      have htake : xs.takeWhile (fun x => decide (prioGE x t)) = [] := by
        cases xs with
        | nil => rfl
        | cons y ys =>
          rw [List.takeWhile_cons,
            if_neg (by simpa using hxs y (List.mem_cons_self y ys))]
      have hdrop : xs.dropWhile (fun x => decide (prioGE x t)) = xs := by
        cases xs with
        | nil => rfl
        | cons y ys =>
          rw [List.dropWhile_cons,
            if_neg (by simpa using hxs y (List.mem_cons_self y ys))]
      rw [htake, hdrop, List.nil_append, List.takeWhile_cons, List.dropWhile_cons,
          if_neg (by simpa using hxt), if_neg (by simpa using hxt),
          List.orderedInsert, if_neg hxt, orderedInsert_of_forall hx, List.nil_append]

theorem addTask_invariant {q : List QTask} {t : QTask} {n : Nat}
    (h : QueueInvariant q n) (ht : t.arrival = n) :
    QueueInvariant (addTask q t) (n + 1) := by
  obtain ⟨hsort, harr, hlt⟩ := h
  have harr' : q.Pairwise (fun a b => a.priority = b.priority → a.arrival < b.arrival) :=
    harr
  refine ⟨List.sorted_insertionSort prioGE (q ++ [t]), ?_, ?_⟩
  · rw [ArrivalOrdered, addTask, insertionSort_append_singleton t hsort,
        List.pairwise_append]
    have hq : (q.takeWhile (fun x => decide (prioGE x t)) ++
        q.dropWhile (fun x => decide (prioGE x t))).Pairwise
          (fun a b => a.priority = b.priority → a.arrival < b.arrival) := by
      rw [List.takeWhile_append_dropWhile]
      exact harr'
    have hcross := (List.pairwise_append.mp hq).2.2
    refine ⟨?_, ?_, ?_⟩
    · exact List.Pairwise.sublist (List.takeWhile_sublist _) harr'
    · rw [List.pairwise_cons]
      refine ⟨fun b hb hpb => ?_, ?_⟩
      · exact absurd (le_of_eq hpb) (dropWhile_not_ahead hsort b hb)
      · exact List.Pairwise.sublist (List.dropWhile_sublist _) harr'
    · intro a ha b hb
      rcases List.mem_cons.mp hb with rfl | hb'
      · intro _
        rw [ht]
        exact hlt a (List.takeWhile_subset _ ha)
      · exact hcross a ha b hb'
  · intro x hx
    rw [addTask, List.mem_insertionSort, List.mem_append] at hx
    rcases hx with hx | hx
    · exact lt_trans (hlt x hx) (Nat.lt_succ_self n)
    · rw [List.mem_singleton.mp hx, ht]
      exact Nat.lt_succ_self n

theorem buildQueueAux_invariant :
    ∀ (ps : List Int) (q : List QTask) (n : Nat), QueueInvariant q n →
      QueueInvariant (buildQueueAux q n ps) (n + ps.length)
  | [], q, n, h => by simpa [buildQueueAux] using h
  | p :: ps, q, n, h => by
    rw [buildQueueAux]
    have := buildQueueAux_invariant ps (addTask q ⟨p, n⟩) (n + 1)
      (addTask_invariant h rfl)
    rw [List.length_cons]
    rw [show n + (ps.length + 1) = n + 1 + ps.length by omega]
    exact this

/-! ## Claim theorems: task queue -/

/-- C7: after every sequence of `addTask` calls starting from the empty
queue, the pending queue is sorted in descending priority order and
tasks of equal priority appear in their arrival order (the JavaScript
stable sort preserves insertion order among ties). -/
theorem c7_addTask_priority_stable (ps : List Int) :
    (buildQueue ps).Sorted prioGE ∧ ArrivalOrdered (buildQueue ps) := by
  have := buildQueueAux_invariant ps [] 0
    ⟨List.sorted_nil, List.Pairwise.nil, by simp⟩
  exact ⟨this.1, this.2.1⟩

/-! ## Supporting lemmas: hook handler and retrieval gate -/

theorem formatRagResultsXml_ne_nil {rs : List RagResult} (h : rs ≠ []) :
    formatRagResultsXml rs ≠ [] := by
  obtain ⟨r, rest, rfl⟩ := List.exists_cons_of_ne_nil h
  have hded : dedupAux [] (r :: rest) = r :: dedupAux [dedupKey r] rest := by
    rw [dedupAux, if_neg (by simp)]
  rw [formatRagResultsXml, if_neg (by simp), hded, if_neg (by simp)]
  intro hcontra
  rw [List.append_eq_nil, List.append_eq_nil] at hcontra
  have hhead :
      ¬(("<historical_memory>\n以下是與當前對話相關的歷史記憶片段：\n\n".data : List Char) = []) := by
    decide
  exact absurd hcontra.1.1 hhead

theorem map_id_of_eq {l : List Char} {f : Char → Char} (h : ∀ c ∈ l, f c = c) :
    l.map f = l := by
  induction l with
  | nil => rfl
  | cons c rest ih =>
    rw [List.map_cons, h c (List.mem_cons_self _ _),
        ih (fun x hx => h x (List.mem_cons_of_mem _ hx))]

/-! ## Claim theorems: hook handler cache -/

/-- C8: if a retrieval for query `q` completed with non-empty results at
time `t0` (under the allowed agent and the minimum query length), then a
repeat of the exact same query string within the 5-second TTL returns
the previously cached formatted text, leaves the cache untouched and
performs no retrieval — no embedding call and no vector-store search —
regardless of what a retrieval would now return. -/
theorem c8_cache_short_circuit (st0 : CacheState) (agentId q : List Char)
    (t0 t1 : Nat) (rs : List RagResult) (oracle2 : Option (List RagResult))
    (hagent : allowedAgents.contains agentId = true)
    (hlen : ¬ q.length < MIN_QUERY_LENGTH)
    (hmiss : cacheHit st0 q t0 = false)
    (hrs : rs ≠ [])
    (httl : t1 - t0 < CACHE_TTL) :
    handlerStep st0 agentId (some q) t0 (some rs) =
      (⟨some q, some (formatRagResultsXml rs), t0⟩,
       some (formatRagResultsXml rs), true) ∧
    handlerStep ⟨some q, some (formatRagResultsXml rs), t0⟩ agentId (some q) t1
        oracle2 =
      (⟨some q, some (formatRagResultsXml rs), t0⟩,
       some (formatRagResultsXml rs), false) := by
  have hform := formatRagResultsXml_ne_nil hrs
  constructor
  · rw [handlerStep, if_neg (not_not_intro hagent), if_neg hlen,
        if_neg (by simp [hmiss])]
    show (if rs.length = 0 then (st0, none, true)
      else ((⟨some q, some (formatRagResultsXml rs), t0⟩ : CacheState),
            some (formatRagResultsXml rs), true)) =
      ((⟨some q, some (formatRagResultsXml rs), t0⟩ : CacheState),
       some (formatRagResultsXml rs), true)
    rw [if_neg (by simp [List.length_eq_zero, hrs])]
  · have hhit : cacheHit ⟨some q, some (formatRagResultsXml rs), t0⟩ q t1 = true := by
      rw [cacheHit]
      simp [hform, httl]
    show (if ¬ allowedAgents.contains agentId then
        ((⟨some q, some (formatRagResultsXml rs), t0⟩ : CacheState), none, false)
      else if q.length < MIN_QUERY_LENGTH then
        ((⟨some q, some (formatRagResultsXml rs), t0⟩ : CacheState), none, false)
      else if cacheHit ⟨some q, some (formatRagResultsXml rs), t0⟩ q t1 then
        ((⟨some q, some (formatRagResultsXml rs), t0⟩ : CacheState),
         (⟨some q, some (formatRagResultsXml rs), t0⟩ : CacheState).lastResult, false)
      else
        match oracle2 with
        | none =>
          ((⟨some q, some (formatRagResultsXml rs), t0⟩ : CacheState), none, true)
        | some results =>
          if results.length = 0 then
            ((⟨some q, some (formatRagResultsXml rs), t0⟩ : CacheState), none, true)
          else
            (⟨some q, some (formatRagResultsXml results), t1⟩,
             some (formatRagResultsXml results), true)) =
      ((⟨some q, some (formatRagResultsXml rs), t0⟩ : CacheState),
       some (formatRagResultsXml rs), false)
    rw [if_neg (not_not_intro hagent), if_neg hlen, if_pos hhit]

/-- Witness for `c8_cache_short_circuit`: a concrete first retrieval at
time 100 followed by the same query at time 1000. -/
theorem c8_cache_short_circuit_witness :
    handlerStep ⟨none, none, 0⟩ "main".data (some "hello world".data) 100
        (some [⟨"abc".data, "/x".data, 1 / 4⟩]) =
      (⟨some "hello world".data,
        some (formatRagResultsXml [⟨"abc".data, "/x".data, 1 / 4⟩]), 100⟩,
       some (formatRagResultsXml [⟨"abc".data, "/x".data, 1 / 4⟩]), true) ∧
    handlerStep ⟨some "hello world".data,
        some (formatRagResultsXml [⟨"abc".data, "/x".data, 1 / 4⟩]), 100⟩
        "main".data (some "hello world".data) 1000 none =
      (⟨some "hello world".data,
        some (formatRagResultsXml [⟨"abc".data, "/x".data, 1 / 4⟩]), 100⟩,
       some (formatRagResultsXml [⟨"abc".data, "/x".data, 1 / 4⟩]), false) :=
  c8_cache_short_circuit ⟨none, none, 0⟩ "main".data "hello world".data 100 1000
    [⟨"abc".data, "/x".data, 1 / 4⟩] none (by decide) (by decide) (by decide)
    (by decide) (by decide)

/-! ## Claim theorems: retrieval gate -/

/-- C10: `shouldPerformRag` returns `false` for every query whose
trimmed text consists entirely of ASCII digits and whitespace (such as
`"12345"`), even when it is long enough, not a command and not a
greeting, because the emoji-only rejection pattern
`/^[\p{Emoji}\s]+$/u` also matches the digits `0`-`9`. -/
theorem c10_digit_query_rejected (q : List Char)
    (hdigits : ∀ c ∈ trimChars q, (48 ≤ c.toNat ∧ c.toNat ≤ 57) ∨ isWsChar c = true) :
    shouldPerformRag q = false := by
  have hmap : (trimChars q).map Char.toLower = trimChars q := by
    apply map_id_of_eq
    intro c hc
    rcases hdigits c hc with ⟨h1, h2⟩ | hws
    · show (if c.toNat ≥ 65 ∧ c.toNat ≤ 90 then Char.ofNat (c.toNat + 32) else c) = c
      rw [if_neg (by omega)]
    · have hws' : c = ' ' ∨ c = '\t' ∨ c = '\n' ∨ c = '\r' := by
        simpa [isWsChar, or_assoc] using hws
      rcases hws' with rfl | rfl | rfl | rfl <;> decide
  rw [shouldPerformRag]
  simp only [hmap]
  by_cases h1 : (trimChars q).take 1 = ['/']
  · rw [if_pos h1]
  · rw [if_neg h1]
    by_cases h2 : (trimChars q).length < 5
    · rw [if_pos h2]
    · rw [if_neg h2]
      by_cases h3 : trimChars q ∈ greetings
      · rw [if_pos h3]
      · rw [if_neg h3, if_pos]
        rw [Bool.and_eq_true]
        constructor
        · simp only [ne_eq, decide_eq_true_eq]
          intro h0
          rw [h0] at h2
          exact h2 (by simp)
        · rw [List.all_eq_true]
          intro c hc
          rcases hdigits c hc with ⟨hd1, hd2⟩ | hws
          · have hde : (48 ≤ c.toNat && c.toNat ≤ 57) = true := by
              simp [hd1, hd2]
            simp [emojiProp, hde]
          · simp [regexWs, hws]

/-- Witness for `c10_digit_query_rejected`: the query `"12345"` — 5
characters, not a command, not a greeting — is rejected. -/
theorem c10_digit_query_rejected_witness :
    shouldPerformRag "12345".data = false :=
  c10_digit_query_rejected "12345".data (by decide)

end MemoryGuardian
